import Mathlib

/-!
Shallow embedding of the `RedisClient` core (pagovitsa/redis-client) and
proofs of the specification claims C1-C10.

The embedded code comes from the main client module: the compression /
decompression caching layer (`_getCacheKey`, `_compress`, `_decompress`),
the key codec (`_formatKey` plus prefix stripping via `String.replace`),
the JSON helpers (`_serialize`, `_parseJson`, `_normalizeObject`) and the
read paths (`getKey`, `getBulk`, `getNamespaceSnapshot`).

Modelling conventions:
- JS `Map` objects (the compression, decompression and key-format caches)
  are insertion-ordered association lists.
- JS values are the inductive `JVal`; JSON numbers are modelled as
  integers, which covers every value the claims exercise.
- External collaborators (zlib deflate/inflate plus the base64 wrapping,
  and the host `JSON.parse`) are not repository code: the codec is a pair
  of functions carried in the client context, and `JSON.parse` is modelled
  by the executable recursive-descent parser `jsonParse` below.
- Timing instrumentation (`performance.now`, `performanceStats`) does not
  influence any returned value and is omitted.
- Thrown JS exceptions are modelled with `Except String`.
-/

namespace RC

/-- Association-list lookup, mirroring `Map.prototype.get` (and the
`has`-then-`get` pattern) on a JS `Map`, which is insertion ordered. -/
def assocLookup {α : Type} : List (String × α) → String → Option α
  | [], _ => none
  | (a, b) :: rest, k => if a = k then some b else assocLookup rest k

/-- Insertion-ordered update, mirroring `Map.prototype.set` and plain JS
object property assignment: an existing key keeps its position and receives
the new value, a fresh key is appended at the end. -/
def jsMapSet {α : Type} : List (String × α) → String → α → List (String × α)
  | [], k, v => [(k, v)]
  | (a, b) :: rest, k, v =>
    if a = k then (a, v) :: rest else (a, b) :: jsMapSet rest k v

/-- The `\x7b` character. Written via `Char.ofNat` because brace characters
do not appear literally in this development. -/
def lbrace : Char := Char.ofNat 123

/-- The `\x7d` character. -/
def rbrace : Char := Char.ofNat 125

/-- JavaScript values flowing through the client: strings, JSON data,
`null`, booleans and numbers (modelled as integers), arrays and objects. -/
inductive JVal where
  | vnull
  | vbool (b : Bool)
  | vnum (n : Int)
  | vstr (s : String)
  | varr (l : List JVal)
  | vobj (l : List (String × JVal))

/-- String escaping used by `JSON.stringify`, restricted to quote and
backslash (control-character escapes are not exercised by any claim). -/
def escList : List Char → List Char
  | [] => []
  | c :: t =>
    if c = '\"' then '\\' :: '\"' :: escList t
    else if c = '\\' then '\\' :: '\\' :: escList t
    else c :: escList t

/-- Comma-join of rendered fragments, as `Array.prototype.join` would. -/
def commaJoin : List String → String
  | [] => ""
  | [s] => s
  | s :: t => s ++ "," ++ commaJoin t

mutual

/-- Model of the host `JSON.stringify` on `JVal` (integer numbers only). -/
def jsonStringify : JVal → String
  | .vnull => "null"
  | .vbool true => "true"
  | .vbool false => "false"
  | .vnum n => toString n
  | .vstr s => String.mk ('\"' :: (escList s.data ++ ['\"']))
  | .varr l => "[" ++ commaJoin (stringifyList l) ++ "]"
  | .vobj l => String.mk [lbrace] ++ commaJoin (stringifyFields l) ++ String.mk [rbrace]

/-- Renders the elements of a JSON array. -/
def stringifyList : List JVal → List String
  | [] => []
  | v :: t => jsonStringify v :: stringifyList t

/-- Renders the `"key":value` members of a JSON object. -/
def stringifyFields : List (String × JVal) → List String
  | [] => []
  | (k, v) :: t =>
    (String.mk ('\"' :: (escList k.data ++ ['\"'])) ++ ":" ++ jsonStringify v) :: stringifyFields t

end

/-- Source `_serialize` (module line 277): strings pass through unchanged,
anything else is `JSON.stringify`-ed. -/
def _serialize (v : JVal) : String :=
  match v with
  | .vstr s => s
  | _ => jsonStringify v

/-- Truncation of an integer to the signed 32-bit range, the effect of the
JS `| 0`-style coercions (`<<` and `& `) in `_getCacheKey`. -/
def toInt32 (x : Int) : Int :=
  (x + 2147483648) % 4294967296 - 2147483648

/-- One step of the rolling hash in `_getCacheKey` (module lines 172-176):
`hash = ((hash << 5) - hash) + char; hash = hash & hash;`. The shift is a
32-bit shift, the following sum is exact in doubles, and the final `&`
truncates back to a signed 32-bit integer. Character codes are the
code points, which agrees with `charCodeAt` on all inputs the claims use. -/
def hashStep (h : Int) (c : Char) : Int :=
  toInt32 (toInt32 (h * 32) - h + (c.toNat : Int))

/-- The rolling-hash loop of `_getCacheKey`: it visits
`Math.min(str.length, 100)` characters, i.e. the first 100. -/
def hashLoop (s : String) : Int :=
  (s.data.take 100).foldl hashStep 0

/-- Digit characters for base 36, lowercase as in `Number.toString(36)`. -/
def b36digitChar (d : Nat) : Char :=
  if d < 10 then Char.ofNat (48 + d) else Char.ofNat (87 + d)

/-- Accumulator loop for the base-36 rendering; the fuel argument is an
upper bound on the number of digits and is always sufficient below. -/
def natToB36Aux : Nat → Nat → List Char → List Char
  | 0, _, acc => acc
  | f + 1, n, acc => if n = 0 then acc else natToB36Aux f (n / 36) (b36digitChar (n % 36) :: acc)

/-- Base-36 rendering of a natural number, as `Number.toString(36)`. -/
def natToB36 (n : Nat) : String :=
  if n = 0 then "0" else String.mk (natToB36Aux (n + 1) n [])

/-- Base-36 rendering of an integer: JS prints a leading minus sign for
negative values. -/
def intToB36 (i : Int) : String :=
  if i < 0 then "-" ++ natToB36 i.natAbs else natToB36 i.toNat

/-- Source `_getCacheKey` (module lines 168-178): serialize non-strings,
roll the hash over at most the first 100 characters, render in base 36. -/
def _getCacheKey (data : JVal) : String :=
  let str := match data with
    | JVal.vstr s => s
    | _ => jsonStringify data
  intToB36 (hashLoop str)

/-- Helper for `String.prototype.replace` with a plain-string pattern: it
replaces only the first (leftmost) occurrence. This walks the character
list and splices out the first match of `pat`. -/
def rfAux : List Char → List Char → List Char
  | [], _ => []
  | c :: rest, pat =>
    if pat.isPrefixOf (c :: rest) then List.drop pat.length (c :: rest)
    else c :: rfAux rest pat

/-- JS `s.replace(pat, '')` for a string pattern: removes the first
occurrence of `pat` from `s`; `s` is returned unchanged if `pat` does not
occur. -/
def replaceFirst (s pat : String) : String :=
  String.mk (rfAux s.data pat.data)

/-- Source `_formatKey` (module lines 284-300). The key-format cache is an
explicit argument; entries map the composed key to itself, the cache is
wiped once it reaches 1000 entries, and the composed key is
`namespace + ':' + key`. Returns the formatted key and the updated cache. -/
def _formatKey (kf : List (String × String)) (ns key : String) :
    String × List (String × String) :=
  let cacheKey := ns ++ ":" ++ key
  match assocLookup kf cacheKey with
  | some v => (v, kf)
  | none =>
    let formatted := ns ++ ":" ++ key
    let kf1 := if 1000 ≤ kf.length then [] else kf
    (formatted, jsMapSet kf1 cacheKey formatted)

/-- JSON whitespace characters. -/
def isWs (c : Char) : Bool :=
  c = ' ' || c = '\t' || c = '\n' || c = '\r'

/-- Skips leading JSON whitespace. -/
def skipWs : List Char → List Char
  | [] => []
  | c :: rest => if isWs c then skipWs rest else c :: rest

/-- ASCII decimal digit test. -/
def isDigitCh (c : Char) : Bool :=
  48 ≤ c.toNat && c.toNat ≤ 57

/-- Splits off a leading run of decimal digits. -/
def spanDigits : List Char → List Char × List Char
  | [] => ([], [])
  | c :: rest =>
    if isDigitCh c then
      let p := spanDigits rest
      (c :: p.1, p.2)
    else ([], c :: rest)

/-- Numeric value of a digit run. -/
def digitsToNat (l : List Char) : Nat :=
  l.foldl (fun a c => a * 10 + (c.toNat - 48)) 0

/-- Parses a JSON number. The model accepts integer literals only; no
claim exercises fractional or exponent forms. -/
def parseNumLit (cs : List Char) : Option (JVal × List Char) :=
  match cs with
  | [] => none
  | c :: rest =>
    if c = '-' then
      match spanDigits rest with
      | ([], _) => none
      | (d :: ds, r) => some (.vnum (-(Int.ofNat (digitsToNat (d :: ds)))), r)
    else if isDigitCh c then
      let p := spanDigits cs
      some (.vnum (Int.ofNat (digitsToNat p.1)), p.2)
    else none

/-- Parses the body of a JSON string literal after the opening quote,
accumulating decoded characters in reverse. Escapes cover the named JSON
escapes; `\uXXXX` forms are not modelled (no claim uses them). -/
def parseStringAux : List Char → List Char → Option (String × List Char)
  | [], _ => none
  | c :: rest, acc =>
    if c = '\"' then some (String.mk acc.reverse, rest)
    else if c = '\\' then
      match rest with
      | [] => none
      | e :: r2 =>
        if e = '\"' then parseStringAux r2 ('\"' :: acc)
        else if e = '\\' then parseStringAux r2 ('\\' :: acc)
        else if e = '/' then parseStringAux r2 ('/' :: acc)
        else if e = 'n' then parseStringAux r2 ('\n' :: acc)
        else if e = 't' then parseStringAux r2 ('\t' :: acc)
        else if e = 'r' then parseStringAux r2 ('\r' :: acc)
        else if e = 'b' then parseStringAux r2 (Char.ofNat 8 :: acc)
        else if e = 'f' then parseStringAux r2 (Char.ofNat 12 :: acc)
        else none
    else if c.toNat < 32 then none
    else parseStringAux rest (c :: acc)

/-- Parses a JSON string literal body (after the opening quote). -/
def parseStringLit (cs : List Char) : Option (String × List Char) :=
  parseStringAux cs []

mutual

/-- Model of the host `JSON.parse`: value parser positioned at a
non-whitespace character. The fuel argument strictly decreases on every
nested parse; `jsonParse` supplies enough for any input. -/
def parseValueCore : Nat → List Char → Option (JVal × List Char)
  | 0, _ => none
  | f + 1, cs =>
    match cs with
    | [] => none
    | c :: rest =>
      if c = lbrace then
        match parseObjBody f (skipWs rest) with
        | some p => some (JVal.vobj p.1, p.2)
        | none => none
      else if c = '[' then
        match parseArrBody f (skipWs rest) with
        | some p => some (JVal.varr p.1, p.2)
        | none => none
      else if c = '\"' then
        match parseStringLit rest with
        | some p => some (JVal.vstr p.1, p.2)
        | none => none
      else
        match cs with
        | 't' :: 'r' :: 'u' :: 'e' :: r => some (JVal.vbool true, r)
        | 'f' :: 'a' :: 'l' :: 's' :: 'e' :: r => some (JVal.vbool false, r)
        | 'n' :: 'u' :: 'l' :: 'l' :: r => some (JVal.vnull, r)
        | _ => parseNumLit cs

/-- Parses an object body positioned after the opening brace (whitespace
already skipped): either an immediate closing brace or a member list. -/
def parseObjBody : Nat → List Char → Option (List (String × JVal) × List Char)
  | 0, _ => none
  | f + 1, cs =>
    match cs with
    | [] => none
    | c :: _ =>
      if c = rbrace then
        match cs with
        | _ :: rest => some ([], rest)
        | [] => none
      else parseMembers f cs

/-- Parses one or more `"key": value` members followed by `,` or a closing
brace. -/
def parseMembers : Nat → List Char → Option (List (String × JVal) × List Char)
  | 0, _ => none
  | f + 1, cs =>
    match cs with
    | [] => none
    | c :: rest =>
      if c = '\"' then
        match parseStringLit rest with
        | none => none
        | some (key, r2) =>
          match skipWs r2 with
          | [] => none
          | c2 :: r3 =>
            if c2 = ':' then
              match parseValueCore f (skipWs r3) with
              | none => none
              | some (v, r4) =>
                match skipWs r4 with
                | [] => none
                | c3 :: r5 =>
                  if c3 = ',' then
                    match parseMembers f (skipWs r5) with
                    | some p => some ((key, v) :: p.1, p.2)
                    | none => none
                  else if c3 = rbrace then some ([(key, v)], r5)
                  else none
            else none
      else none

/-- Parses an array body positioned after the opening bracket (whitespace
already skipped): either an immediate `]` or an element list. -/
def parseArrBody : Nat → List Char → Option (List JVal × List Char)
  | 0, _ => none
  | f + 1, cs =>
    match cs with
    | [] => none
    | c :: rest =>
      if c = ']' then some ([], rest)
      else parseElems f cs

/-- Parses one or more array elements separated by `,` up to `]`. -/
def parseElems : Nat → List Char → Option (List JVal × List Char)
  | 0, _ => none
  | f + 1, cs =>
    match parseValueCore f (skipWs cs) with
    | none => none
    | some (v, r) =>
      match skipWs r with
      | [] => none
      | c :: r2 =>
        if c = ',' then
          match parseElems f r2 with
          | some p => some (v :: p.1, p.2)
          | none => none
        else if c = ']' then some ([v], r2)
        else none

end

/-- Model of the host `JSON.parse`: parses a complete value and requires
only whitespace to remain. The fuel `2 * length + 2` strictly dominates
the recursion depth of any parse of the input. -/
def jsonParse (s : String) : Option JVal :=
  match parseValueCore (2 * s.length + 2) (skipWs s.data) with
  | some (v, rest) => if skipWs rest = [] then some v else none
  | none => none

/-- The fast-path first-character test of `_parseJson` (module line 265):
`JSON_START_CHARS.has(value[0])`, where `value[0]` of an empty string is
`undefined` and fails the test. -/
def firstCharJsonOk (s : String) : Bool :=
  match s.data with
  | [] => false
  | c :: _ => c = lbrace || c = '['

/-- Source `_parseJson` (module lines 263-272): non-strings and strings
failing the first-character fast path return the JS sentinel `false`; a
failing `JSON.parse` is caught and also returns `false`; otherwise the
parsed value is returned. -/
def _parseJson (v : JVal) : JVal :=
  match v with
  | .vstr s =>
    if firstCharJsonOk s then
      match jsonParse s with
      | some j => j
      | none => .vbool false
    else .vbool false
  | _ => .vbool false

/-- The strict comparison `result !== false` used by every `_parseJson`
caller, phrased as a test for the sentinel. -/
def isSentinel : JVal → Bool
  | .vbool false => true
  | _ => false

/-- Client context for the value-transform pipeline: the compression flag,
the external codec (zlib deflate composed with base64 encoding, and its
inverse, which can reject invalid input), the two transform caches and the
configured cache-size ceiling (`performanceThresholds.cacheSize`,
initialized to `COMPRESSION_CACHE_MAX_SIZE = 2000`). -/
structure Ctx where
  enableCompression : Bool
  deflate : String → String
  inflate : String → Except String String
  compressionCache : List (String × String)
  decompressionCache : List (String × String)
  cacheSize : Nat

/-- Cache insertion with the eviction policy of `_compress`/`_decompress`
(module lines 205-211 and 245-250): when the current size has reached the
ceiling, the oldest `Math.floor(ceiling * 0.2)` entries (insertion order)
are deleted before the new entry is stored. For every ceiling the source
can configure, `Math.floor(ceiling * 0.2)` computed in doubles equals
`ceiling / 5` in natural division. -/
def cacheInsert (ceiling : Nat) (m : List (String × String)) (k v : String) :
    List (String × String) :=
  let m1 := if ceiling ≤ m.length then m.drop (ceiling / 5) else m
  jsMapSet m1 k v

/-- Source `_compress` (module lines 183-219). Disabled compression
returns the string form of the input. Enabled compression consults the
compression cache keyed by `_getCacheKey`, and on a miss deflates,
base64-encodes (both folded into `Ctx.deflate`), evicts if needed and
caches. Call sites only ever pass strings; `Buffer.from` on a non-string
is modelled as a thrown `TypeError`. -/
def _compress (ctx : Ctx) (data : JVal) : Except String (String × Ctx) :=
  if ctx.enableCompression = false then .ok (_serialize data, ctx)
  else
    match data with
    | .vstr s =>
      let cacheKey := _getCacheKey data
      match assocLookup ctx.compressionCache cacheKey with
      | some v => .ok (v, ctx)
      | none =>
        let result := ctx.deflate s
        .ok (result,
          { ctx with
            compressionCache := cacheInsert ctx.cacheSize ctx.compressionCache cacheKey result })
    | _ => .error "TypeError"

/-- Source `_decompress` (module lines 224-258). Disabled compression is
the identity. Enabled compression consults the decompression cache keyed
by `_getCacheKey`; on a miss it base64-decodes and inflates (folded into
`Ctx.inflate`, which rejects invalid input), evicts if needed and caches.
A codec failure is rethrown to the caller. -/
def _decompress (ctx : Ctx) (base64Data : String) : Except String (String × Ctx) :=
  if ctx.enableCompression = false then .ok (base64Data, ctx)
  else
    let cacheKey := _getCacheKey (.vstr base64Data)
    match assocLookup ctx.decompressionCache cacheKey with
    | some v => .ok (v, ctx)
    | none =>
      match ctx.inflate base64Data with
      | .error e => .error e
      | .ok result =>
        .ok (result,
          { ctx with
            decompressionCache := cacheInsert ctx.cacheSize ctx.decompressionCache cacheKey result })

/-- The round trip of claim C1: compress the serialization of `v`, then
decompress the result, threading the client context. -/
def roundTrip (ctx : Ctx) (v : JVal) : Except String String :=
  match _compress ctx (.vstr (_serialize v)) with
  | .error e => .error e
  | .ok (c, ctx1) =>
    match _decompress ctx1 c with
    | .error e => .error e
    | .ok (d, _) => .ok d

mutual

/-- Source `_normalizeObject` (module lines 1134-1153): `null` and
`undefined` are returned as-is, arrays and objects are rebuilt
recursively, everything else passes through. -/
def normalizeObject : JVal → JVal
  | .vnull => .vnull
  | .varr l => .varr (normalizeList l)
  | .vobj l => .vobj (normalizeFields l)
  | v => v

/-- Element-wise normalization of arrays. -/
def normalizeList : List JVal → List JVal
  | [] => []
  | v :: t => normalizeObject v :: normalizeList t

/-- Entry-wise normalization of objects. -/
def normalizeFields : List (String × JVal) → List (String × JVal)
  | [] => []
  | (k, v) :: t => (k, normalizeObject v) :: normalizeFields t

end

/-- Store-native value types: Redis strings, hashes, lists, sets and
sorted sets (member with integer score). -/
inductive RVal where
  | rstr (s : String)
  | rhash (l : List (String × String))
  | rlist (l : List String)
  | rset (l : List String)
  | rzset (l : List (String × Int))

/-- The external key-value store: full Redis keys mapped to typed values,
in key-creation order (the order `KEYS` reports in the model). -/
abbrev Store := List (String × RVal)

/-- The `TYPE` command of the store, as consumed by the snapshot engine. -/
def redisType (st : Store) (k : String) : String :=
  match assocLookup st k with
  | some (RVal.rstr _) => "string"
  | some (RVal.rhash _) => "hash"
  | some (RVal.rlist _) => "list"
  | some (RVal.rset _) => "set"
  | some (RVal.rzset _) => "zset"
  | none => "none"

/-- A pipelined `GET`: `null` for an absent key, the stored string for a
string key, and a thrown `WRONGTYPE` error for any other stored type. -/
def redisGetStr (st : Store) (k : String) : Except String (Option String) :=
  match assocLookup st k with
  | some (RVal.rstr s) => .ok (some s)
  | some _ => .error "WRONGTYPE"
  | none => .ok none

/-- Executes the pipelined `GET`s of `getBulk` in submission order. -/
def redisGetMany (st : Store) : List String → Except String (List (Option String))
  | [] => .ok []
  | k :: rest =>
    match redisGetStr st k with
    | .error e => .error e
    | .ok v =>
      match redisGetMany st rest with
      | .error e => .error e
      | .ok vs => .ok (v :: vs)

/-- The `KEYS namespace:*` scan: every store key carrying the
`namespace:` prefix, in store order. -/
def keysMatching (st : Store) (ns : String) : List String :=
  st.filterMap (fun p => if (ns ++ ":").data.isPrefixOf p.1.data then some p.1 else none)

/-- Source `getKey` (module lines 696-717): fetch, truthiness test (empty
string and `null` both fail it), decompress, JSON-parse with raw-string
fallback. Every error is caught at function level and turned into `null`. -/
def getKey (ctx : Ctx) (ns : String) (st : Store) (key : String) : JVal × Ctx :=
  match redisGetStr st (ns ++ ":" ++ key) with
  | .error _ => (JVal.vnull, ctx)
  | .ok none => (JVal.vnull, ctx)
  | .ok (some s) =>
    if s = "" then (JVal.vnull, ctx)
    else
      match _decompress ctx s with
      | .error _ => (JVal.vnull, ctx)
      | .ok (d, ctx1) =>
        let r := _parseJson (.vstr d)
        ((if isSentinel r then JVal.vstr d else r), ctx1)

/-- Per-key post-processing of `getBulk` (module lines 917-925): a truthy
fetched value is decompressed (a decompression error is NOT caught here
and propagates), then JSON-parsed with raw fallback; `null` and the empty
string map to `null`. -/
def getBulkEntry (ctx : Ctx) (key : String) (value : Option String) :
    Except String ((String × JVal) × Ctx) :=
  match value with
  | some s =>
    if s = "" then .ok ((key, JVal.vnull), ctx)
    else
      match _decompress ctx s with
      | .error e => .error e
      | .ok (d, ctx1) =>
        let r := _parseJson (.vstr d)
        .ok ((key, if isSentinel r then JVal.vstr d else r), ctx1)
  | none => .ok ((key, JVal.vnull), ctx)

/-- Sequential elaboration of the decompression fan-out of `getBulk`; the
shared caches are threaded left to right. -/
def getBulkGo (ctx : Ctx) : List (String × Option String) →
    Except String (List (String × JVal) × Ctx)
  | [] => .ok ([], ctx)
  | (k, v) :: rest =>
    match getBulkEntry ctx k v with
    | .error e => .error e
    | .ok (p, ctx1) =>
      match getBulkGo ctx1 rest with
      | .error e => .error e
      | .ok (ps, ctx2) => .ok (p :: ps, ctx2)

/-- `Object.fromEntries`: builds a JS object from key-value pairs, with a
later pair for the same key overwriting the earlier one. -/
def jsFromEntries (l : List (String × JVal)) : List (String × JVal) :=
  l.foldl (fun acc p => jsMapSet acc p.1 p.2) []

/-- Source `getBulk` (module lines 898-936): pipeline one `GET` per
formatted key, post-process each result, assemble with
`Object.fromEntries`. Any error thrown while decompressing rejects the
whole call (the outer catch rethrows). -/
def getBulk (ctx : Ctx) (ns : String) (st : Store) (keys : List String) :
    Except String (List (String × JVal) × Ctx) :=
  match redisGetMany st (keys.map (fun k => ns ++ ":" ++ k)) with
  | .error e => .error e
  | .ok values =>
    match getBulkGo ctx (keys.zip values) with
    | .error e => .error e
    | .ok (pairs, ctx1) => .ok (jsFromEntries pairs, ctx1)

/-- Per-key processing of `getNamespaceSnapshot` (module lines 507-546),
dispatched on the classified store-native type. For a string value the
inner try/catch converts a decompression failure into the raw fetched
value; hashes, lists and sets are normalized directly; a sorted set is
converted to a member-to-score object. The outer per-key catch guards
operations that are total in this model. -/
def processKey (ctx : Ctx) (rv : RVal) : JVal × Ctx :=
  match rv with
  | RVal.rstr s =>
    match _decompress ctx s with
    | .ok (d, ctx1) =>
      let p := _parseJson (.vstr d)
      (normalizeObject (if isSentinel p then JVal.vstr d else p), ctx1)
    | .error _ => (normalizeObject (JVal.vstr s), ctx)
  | RVal.rhash l => (normalizeObject (.vobj (l.map (fun p => (p.1, JVal.vstr p.2)))), ctx)
  | RVal.rlist l => (normalizeObject (.varr (l.map JVal.vstr)), ctx)
  | RVal.rset l => (normalizeObject (.varr (l.map JVal.vstr)), ctx)
  | RVal.rzset l => (normalizeObject (.vobj (l.map (fun p => (p.1, JVal.vnum p.2)))), ctx)

/-- One batch of the snapshot loop: classify each key (a key concurrently
deleted would report type `none` and is skipped; in the static store model
this cannot occur for discovered keys), fetch by type, strip the namespace
prefix with `String.replace` and store the processed value. -/
def snapshotBatch (ctx : Ctx) (ns : String) (st : Store) :
    List String → List (String × JVal) → List (String × JVal) × Ctx
  | [], res => (res, ctx)
  | k :: rest, res =>
    match assocLookup st k with
    | none => snapshotBatch ctx ns st rest res
    | some rv =>
      let cleanKey := replaceFirst k (ns ++ ":")
      let p := processKey ctx rv
      snapshotBatch p.2 ns st rest (jsMapSet res cleanKey p.1)

/-- Splits the discovered keys into consecutive batches of `batchSize`
(the `i += batchSize` loop); the fuel equals the key count, which is
sufficient for every positive batch size. -/
def chunkListAux {α : Type} (bs : Nat) : Nat → List α → List (List α)
  | 0, _ => []
  | _, [] => []
  | f + 1, l => l.take bs :: chunkListAux bs f (l.drop bs)

/-- Batches of at most `bs` keys, in order. -/
def chunkList {α : Type} (bs : Nat) (l : List α) : List (List α) :=
  chunkListAux bs l.length l

/-- Sequentially processes the snapshot batches, merging partial results. -/
def snapshotChunks (ctx : Ctx) (ns : String) (st : Store) :
    List (List String) → List (String × JVal) → List (String × JVal) × Ctx
  | [], res => (res, ctx)
  | b :: rest, res =>
    let p := snapshotBatch ctx ns st b res
    snapshotChunks p.2 ns st rest p.1

/-- Source `getNamespaceSnapshot` (module lines 433-555): discover the
namespace keys, short-circuit when empty, then process in batches. -/
def getNamespaceSnapshot (ctx : Ctx) (ns : String) (st : Store) (batchSize : Nat) :
    List (String × JVal) × Ctx :=
  let keys := keysMatching st ns
  if keys.isEmpty then ([], ctx)
  else snapshotChunks ctx ns st (chunkList batchSize keys) []

/-! Concrete client contexts and stores used to instantiate the claims. -/

/-- A client with compression disabled (the constructor default). -/
def ctxOff : Ctx :=
  { enableCompression := false
    deflate := fun s => s
    inflate := fun s => .ok s
    compressionCache := []
    decompressionCache := []
    cacheSize := 2000 }

/-- A fresh client with compression enabled and an identity codec (a legal
codec: its inverse law holds definitionally). -/
def ctxId : Ctx :=
  { ctxOff with enableCompression := true }

/-- A client with compression enabled whose decompression cache already
holds a stale entry under the fingerprint of `"x"`. -/
def ctxPoison : Ctx :=
  { ctxId with decompressionCache := [(_getCacheKey (.vstr "x"), "WRONG")] }

/-- A codec whose decode side rejects the payload `"BAD"`, modelling zlib
inflate failing on invalid input. -/
def inflateBad : String → Except String String :=
  fun s => if s = "BAD" then .error "bad" else .ok s

/-- A compression-enabled client using `inflateBad`. -/
def ctxBad : Ctx :=
  { ctxId with inflate := inflateBad }

/-- A namespace holding one undecompressable string value and one valid
JSON string value. -/
def storeBad : Store :=
  [("ns:k1", RVal.rstr "BAD"), ("ns:k2", RVal.rstr "\x7b\"a\":1\x7d")]

/-- The five-type namespace of claim C3: a JSON-object string, a hash, a
list, a set and a sorted set. -/
def store5 : Store :=
  [("ns:str", RVal.rstr "\x7b\"a\":1\x7d"),
   ("ns:h", RVal.rhash [("x", "1")]),
   ("ns:l", RVal.rlist ["p", "q"]),
   ("ns:s", RVal.rset ["m", "n"]),
   ("ns:z", RVal.rzset [("s1", 10), ("s2", 20)])]

/-- A namespace whose single key stores the empty string. -/
def storeEmptyVal : Store :=
  [("ns:k", RVal.rstr "")]

/-- A 101-character string: 100 copies of `a` then `b`. -/
def longB : String := String.mk (List.replicate 100 'a' ++ ['b'])

/-- A 101-character string: 100 copies of `a` then `c`. -/
def longC : String := String.mk (List.replicate 100 'a' ++ ['c'])

/-- Six distinct cache fingerprints. -/
def ks6 : List String := ["k0", "k1", "k2", "k3", "k4", "k5"]

/-! Helper lemmas. -/

theorem assocLookup_mem {α : Type} :
    ∀ (l : List (String × α)) (k : String) (v : α),
      assocLookup l k = some v → (k, v) ∈ l := by
  intro l
  induction l with
  | nil => intro k v h; simp [assocLookup] at h
  | cons p rest ih =>
    intro k v h
    obtain ⟨a, b⟩ := p
    simp only [assocLookup] at h
    by_cases hak : a = k
    · rw [if_pos hak] at h
      obtain rfl := Option.some.inj h
      subst hak
      exact List.mem_cons_self _ _
    · rw [if_neg hak] at h
      exact List.mem_cons_of_mem _ (ih k v h)

theorem rfAux_strip : ∀ (p k : List Char), p ≠ [] → rfAux (p ++ k) p = k := by
  intro p k hp
  cases p with
  | nil => exact absurd rfl hp
  | cons c p1 =>
    show rfAux (c :: (p1 ++ k)) (c :: p1) = k
    rw [rfAux]
    rw [if_pos]
    · exact List.drop_left (c :: p1) k
    · exact List.isPrefixOf_iff_prefix.mpr ⟨k, rfl⟩

/-! Claim theorems. -/

/-- C4: for every namespace containing no `:` and every local key,
stripping the `namespace:` prefix (via first-occurrence replacement) from
the key composed by `_formatKey` recovers the local key exactly, for any
key-format cache whose entries map each composed key to itself (the only
caches `_formatKey` ever builds). -/
theorem c4_strip_compose (kf : List (String × String)) (ns key : String)
    (hinv : ∀ p ∈ kf, p.2 = p.1) (hns : ':' ∉ ns.data) :
    replaceFirst (_formatKey kf ns key).1 (ns ++ ":") = key := by
  have hfmt : (_formatKey kf ns key).1 = ns ++ ":" ++ key := by
    unfold _formatKey
    cases h : assocLookup kf (ns ++ ":" ++ key) with
    | none => simp [h]
    | some v =>
      have hv := hinv _ (assocLookup_mem kf _ v h)
      simp only at hv
      simp [h, hv]
  rw [hfmt]
  unfold replaceFirst
  have hdata : (ns ++ ":" ++ key).data = (ns ++ ":").data ++ key.data := by
    simp [String.data_append]
  rw [hdata, rfAux_strip]
  simp [String.data_append]

/-- Witness for C4 at a concrete namespace, key and empty cache. -/
theorem c4_strip_compose_witness :
    replaceFirst (_formatKey [] "app" "user").1 ("app" ++ ":") = "user" :=
  c4_strip_compose [] "app" "user" (by simp) (by decide)

/-- C8: with compression disabled, `_compress` returns the input unchanged
as a string (the string form `_serialize` for non-strings, the string
itself for strings) without touching the context, and `_decompress` is the
identity. -/
theorem c8_identity_disabled (ctx : Ctx) (hoff : ctx.enableCompression = false) :
    (∀ v, _compress ctx v = .ok (_serialize v, ctx)) ∧
    (∀ s, _compress ctx (.vstr s) = .ok (s, ctx)) ∧
    (∀ s, _decompress ctx s = .ok (s, ctx)) := by
  refine ⟨fun v => ?_, fun s => ?_, fun s => ?_⟩ <;>
    simp [_compress, _decompress, _serialize, hoff]

/-- Witness for C8 on a concrete disabled client. -/
theorem c8_identity_disabled_witness :
    _compress ctxOff (.vstr "hi") = .ok ("hi", ctxOff) ∧
    _decompress ctxOff "hi" = .ok ("hi", ctxOff) :=
  ⟨(c8_identity_disabled ctxOff rfl).2.1 "hi",
   (c8_identity_disabled ctxOff rfl).2.2 "hi"⟩

/-- C1 (amended): with compression enabled, a codec satisfying the zlib
round-trip law, and no pre-existing cache entry under either involved
fingerprint (for example a fresh client or one just cleared), decompressing
the compression of the serialization of `v` returns exactly the
serialization of `v`. The amendment drops "for any prior contents of the
caches": `c1_counterexample` shows a stale decompression-cache entry under
a colliding fingerprint breaks the round trip. -/
theorem c1_roundtrip_amended (ctx : Ctx) (v : JVal)
    (hon : ctx.enableCompression = true)
    (hcodec : ∀ s, ctx.inflate (ctx.deflate s) = .ok s)
    (hcc : assocLookup ctx.compressionCache (_getCacheKey (.vstr (_serialize v))) = none)
    (hdc : assocLookup ctx.decompressionCache
        (_getCacheKey (.vstr (ctx.deflate (_serialize v)))) = none) :
    roundTrip ctx v = .ok (_serialize v) := by
  unfold roundTrip _compress
  rw [hon]
  simp only [Bool.true_eq_false, if_false, hcc]
  unfold _decompress
  simp only [hon, Bool.true_eq_false, if_false, hdc, hcodec]

/-- Witness for C1 on a fresh compression-enabled client with the identity
codec. -/
theorem c1_roundtrip_amended_witness :
    roundTrip ctxId (.vstr "a") = .ok "a" :=
  c1_roundtrip_amended ctxId (.vstr "a") rfl (fun _ => rfl) rfl rfl

/-- C1 counterexample: with a stale decompression-cache entry present
before the call, the round trip returns the stale value instead of the
serialization, so the claim fails for arbitrary prior cache contents. -/
theorem c1_counterexample :
    roundTrip ctxPoison (.vstr "x") = .ok "WRONG" ∧
    _serialize (.vstr "x") = "x" ∧ ("WRONG" : String) ≠ "x" :=
  ⟨rfl, rfl, by decide⟩

theorem toInt32_range (x : Int) :
    -2147483648 ≤ toInt32 x ∧ toInt32 x < 2147483648 := by
  unfold toInt32
  have h1 : 0 ≤ (x + 2147483648) % 4294967296 :=
    Int.emod_nonneg _ (by norm_num)
  have h2 : (x + 2147483648) % 4294967296 < 4294967296 :=
    Int.emod_lt_of_pos _ (by norm_num)
  omega

theorem hashFold_range :
    ∀ (l : List Char) (h : Int), -2147483648 ≤ h → h < 2147483648 →
      -2147483648 ≤ l.foldl hashStep h ∧ l.foldl hashStep h < 2147483648 := by
  intro l
  induction l with
  | nil => intro h h1 h2; exact ⟨h1, h2⟩
  | cons c t ih =>
    intro h _ _
    rw [List.foldl_cons]
    exact ih _ (toInt32_range _).1 (toInt32_range _).2

/-- C6 (amended): `_getCacheKey` hashes at most the first 100 characters
of the serialized input, so any two strings agreeing on their first 100
characters receive the same fingerprint; the hash value itself is confined
to the fixed signed 32-bit range. The amendment drops "fixed-width
output": `c6_counterexample` shows the base-36 rendering has variable
length. -/
theorem c6_fingerprint_amended :
    (∀ s t : String, s.data.take 100 = t.data.take 100 →
        _getCacheKey (.vstr s) = _getCacheKey (.vstr t)) ∧
    (∀ s : String, -2147483648 ≤ hashLoop s ∧ hashLoop s < 2147483648) := by
  constructor
  · intro s t h
    simp only [_getCacheKey, hashLoop]
    rw [h]
  · intro s
    exact hashFold_range _ 0 (by norm_num) (by norm_num)

/-- Witness for C6: two distinct 101-character strings sharing their first
100 characters receive the same fingerprint, and a concrete hash value
lies in the 32-bit range. -/
theorem c6_fingerprint_amended_witness :
    _getCacheKey (.vstr longB) = _getCacheKey (.vstr longC) ∧
    -2147483648 ≤ hashLoop "q" ∧ hashLoop "q" < 2147483648 :=
  ⟨c6_fingerprint_amended.1 longB longC (by decide),
   (c6_fingerprint_amended.2 "q").1, (c6_fingerprint_amended.2 "q").2⟩

/-- C6 counterexample: the rendered fingerprint is not fixed-width — the
empty string hashes to a 1-character fingerprint while `"a"` hashes to a
2-character one. -/
theorem c6_counterexample :
    ¬ ∀ s t : String,
        (_getCacheKey (.vstr s)).length = (_getCacheKey (.vstr t)).length := by
  intro h
  exact absurd (h "" "a") (by decide)

/-- C10: a stored empty-string value is indistinguishable from an absent
key at the read interface: both `getKey` and `getBulk` return `null` for
that key, because the truthiness test on the fetched value rejects the
empty string. -/
theorem c10_empty_string_null (ctx : Ctx) (ns : String) (st : Store) (key : String)
    (h : assocLookup st (ns ++ ":" ++ key) = some (RVal.rstr "")) :
    getKey ctx ns st key = (JVal.vnull, ctx) ∧
    getBulk ctx ns st [key] = .ok ([(key, JVal.vnull)], ctx) := by
  constructor
  · simp [getKey, redisGetStr, h]
  · simp [getBulk, redisGetMany, redisGetStr, h, getBulkGo, getBulkEntry,
      jsFromEntries, jsMapSet]

/-- Witness for C10 on a concrete store holding an empty-string value. -/
theorem c10_empty_string_null_witness :
    getKey ctxOff "ns" storeEmptyVal "k" = (JVal.vnull, ctxOff) ∧
    getBulk ctxOff "ns" storeEmptyVal ["k"] = .ok ([("k", JVal.vnull)], ctxOff) :=
  c10_empty_string_null ctxOff "ns" storeEmptyVal "k" rfl

/-- C3: over a namespace holding exactly one key of each store-native type
(string serializing an object, hash, list, set, sorted set),
`getNamespaceSnapshot` returns exactly five entries keyed by the
prefix-stripped local key, each normalized to its expected shape: decoded
object, field-value object, ordered sequence, member sequence and
member-to-score object. -/
theorem c3_snapshot_complete :
    (getNamespaceSnapshot ctxOff "ns" store5 100).1 =
      [("str", JVal.vobj [("a", JVal.vnum 1)]),
       ("h", JVal.vobj [("x", JVal.vstr "1")]),
       ("l", JVal.varr [JVal.vstr "p", JVal.vstr "q"]),
       ("s", JVal.varr [JVal.vstr "m", JVal.vstr "n"]),
       ("z", JVal.vobj [("s1", JVal.vnum 10), ("s2", JVal.vnum 20)])] ∧
    (getNamespaceSnapshot ctxOff "ns" store5 100).1.length = 5 :=
  ⟨rfl, rfl⟩

/-- C2 (amended): inside `getNamespaceSnapshot`, a per-key decompression
failure is caught and degrades only that key to its raw fetched value, and
a per-key parse failure falls back to the decompressed string in both read
paths, the rest of the batch being processed normally — but in `getBulk` a
decompression error is NOT caught per key and rejects the whole call
(`c2_counterexample`). The amendment restricts the original per-key
decompression-failure tolerance to `getNamespaceSnapshot`. -/
theorem c2_perkey_amended :
    (∀ (ctx : Ctx) (s e : String), _decompress ctx s = .error e →
        processKey ctx (RVal.rstr s) = (JVal.vstr s, ctx)) ∧
    (∀ (ctx ctx1 : Ctx) (key s d : String), s ≠ "" →
        _decompress ctx s = .ok (d, ctx1) →
        isSentinel (_parseJson (.vstr d)) = true →
        getBulkEntry ctx key (some s) = .ok ((key, JVal.vstr d), ctx1)) ∧
    (getNamespaceSnapshot ctxBad "ns" storeBad 100).1 =
      [("k1", JVal.vstr "BAD"), ("k2", JVal.vobj [("a", JVal.vnum 1)])] := by
  refine ⟨fun ctx s e herr => ?_, fun ctx ctx1 key s d hs hok hsent => ?_, rfl⟩
  · simp only [processKey]
    rw [herr]
    simp [normalizeObject]
  · simp only [getBulkEntry]
    rw [if_neg hs, hok]
    simp [hsent]

/-- Witness for C2: the failing key degrades to its raw value in the
snapshot path, and a non-JSON decompressed value falls back to the raw
string in the bulk path. -/
theorem c2_perkey_amended_witness :
    processKey ctxBad (RVal.rstr "BAD") = (JVal.vstr "BAD", ctxBad) ∧
    getBulkEntry ctxOff "kk" (some "xyz") = .ok (("kk", JVal.vstr "xyz"), ctxOff) :=
  ⟨c2_perkey_amended.1 ctxBad "BAD" "bad" rfl,
   c2_perkey_amended.2.1 ctxOff ctxOff "kk" "xyz" "xyz" (by decide) rfl rfl⟩

/-- C2 counterexample: one undecompressable stored value makes `getBulk`
throw for the whole batch instead of degrading that key, refuting the
claim that per-key decompression failures are converted to per-key
fallbacks in `getBulk`. -/
theorem c2_counterexample :
    getBulk ctxBad "ns" storeBad ["k1", "k2"] = .error "bad" :=
  rfl

theorem jsMapSet_length_le {α : Type} :
    ∀ (m : List (String × α)) (k : String) (v : α),
      (jsMapSet m k v).length ≤ m.length + 1 := by
  intro m
  induction m with
  | nil => intro k v; simp [jsMapSet]
  | cons p rest ih =>
    intro k v
    obtain ⟨a, b⟩ := p
    simp only [jsMapSet]
    by_cases hak : a = k
    · rw [if_pos hak]; simp
    · rw [if_neg hak]
      have := ih k v
      simp only [List.length_cons]
      omega

theorem jsMapSet_fresh {α : Type} :
    ∀ (m : List (String × α)) (k : String) (v : α),
      k ∉ m.map Prod.fst → jsMapSet m k v = m ++ [(k, v)] := by
  intro m
  induction m with
  | nil => intro k v _; rfl
  | cons p rest ih =>
    intro k v hk
    obtain ⟨a, b⟩ := p
    simp only [List.map_cons, List.mem_cons] at hk
    push_neg at hk
    simp only [jsMapSet]
    rw [if_neg (fun h => hk.1 h.symm)]
    rw [ih k v hk.2]
    rfl

theorem cacheInsert_foldl_fresh (c : Nat) (f : String → String) :
    ∀ (ks : List String) (m : List (String × String)),
      m.length + ks.length ≤ c → (∀ k ∈ ks, k ∉ m.map Prod.fst) → ks.Nodup →
      ks.foldl (fun m k => cacheInsert c m k (f k)) m =
        m ++ ks.map (fun k => (k, f k)) := by
  intro ks
  induction ks with
  | nil => intro m _ _ _; simp
  | cons k t ih =>
    intro m hlen hfresh hnd
    rw [List.foldl_cons]
    have hm : ¬ c ≤ m.length := by
      simp only [List.length_cons] at hlen
      omega
    have hstep : cacheInsert c m k (f k) = m ++ [(k, f k)] := by
      unfold cacheInsert
      rw [if_neg hm]
      exact jsMapSet_fresh m k (f k) (hfresh k (List.mem_cons_self k t))
    rw [hstep, ih]
    · simp
    · simp only [List.length_append, List.length_cons, List.length_nil] at hlen ⊢
      omega
    · intro k2 hk2
      have hne : k2 ≠ k := by
        rcases List.nodup_cons.mp hnd with ⟨hknt, _⟩
        intro he
        exact hknt (he ▸ hk2)
      simp only [List.map_append, List.map_cons, List.map_nil, List.mem_append,
        List.mem_cons, List.not_mem_nil]
      push_neg
      exact ⟨hfresh k2 (List.mem_cons_of_mem k hk2), hne, fun h => h⟩
    · exact (List.nodup_cons.mp hnd).2

/-- C5: a transform-cache insert at size at least the ceiling first drops
the oldest `floor(ceiling * 0.2)` entries in insertion order; any put from
a size within the ceiling stays within the ceiling; and inserting
`ceiling + 1` distinct fingerprints into an empty cache leaves at most
`ceiling` entries with the oldest 20 percent absent. Stated for every
ceiling of at least 5; the client configures 2000. -/
theorem c5_eviction (c : Nat) (hc : 5 ≤ c) :
    (∀ (m : List (String × String)) (k v : String), c ≤ m.length →
        cacheInsert c m k v = jsMapSet (m.drop (c / 5)) k v) ∧
    (∀ (m : List (String × String)) (k v : String), m.length ≤ c →
        (cacheInsert c m k v).length ≤ c) ∧
    (∀ (ks : List String) (f : String → String), ks.Nodup → ks.length = c + 1 →
        (ks.foldl (fun m k => cacheInsert c m k (f k)) []).length ≤ c ∧
        ∀ k ∈ ks.take (c / 5),
          k ∉ (ks.foldl (fun m k => cacheInsert c m k (f k)) []).map Prod.fst) := by
  have hdiv : 1 ≤ c / 5 := (Nat.one_le_div_iff (by omega)).mpr hc
  refine ⟨fun m k v h => ?_, fun m k v h => ?_, fun ks f hnd hlen => ?_⟩
  · simp [cacheInsert, if_pos h]
  · by_cases hcm : c ≤ m.length
    · have he : cacheInsert c m k v = jsMapSet (m.drop (c / 5)) k v := by
        simp [cacheInsert, if_pos hcm]
      rw [he]
      have h1 := jsMapSet_length_le (m.drop (c / 5)) k v
      have h2 : (m.drop (c / 5)).length = m.length - c / 5 := List.length_drop _ _
      omega
    · have he : cacheInsert c m k v = jsMapSet m k v := by
        simp [cacheInsert, if_neg hcm]
      rw [he]
      have h1 := jsMapSet_length_le m k v
      omega
  · rcases List.eq_nil_or_concat ks with rfl | ⟨l, b, rfl⟩
    · simp at hlen
    · rw [List.concat_eq_append] at hlen hnd ⊢
      have hl : l.length = c := by
        simp only [List.length_append, List.length_singleton] at hlen
        omega
      have hnd2 := List.nodup_append.mp hnd
      have hbl : b ∉ l := by
        intro hb
        exact hnd2.2.2 hb (List.mem_singleton.mpr rfl)
      rw [List.foldl_append]
      rw [cacheInsert_foldl_fresh c f l [] (by simp [hl]) (by simp) hnd2.1]
      simp only [List.nil_append, List.foldl_cons, List.foldl_nil]
      have hmfst : (l.map (fun k => (k, f k))).map Prod.fst = l := by
        rw [List.map_map]
        exact List.map_id l
      have hlast : cacheInsert c (l.map (fun k => (k, f k))) b (f b) =
          (l.map (fun k => (k, f k))).drop (c / 5) ++ [(b, f b)] := by
        unfold cacheInsert
        rw [if_pos (by simp [hl])]
        refine jsMapSet_fresh _ b (f b) ?_
        intro hb
        apply hbl
        have : ((l.map (fun k => (k, f k))).drop (c / 5)).map Prod.fst =
            l.drop (c / 5) := by
          rw [← List.map_drop, List.map_map]
          exact List.map_id _
        rw [this] at hb
        exact List.drop_subset _ _ hb
      rw [hlast]
      constructor
      · have h2 : ((l.map (fun k => (k, f k))).drop (c / 5)).length =
            c - c / 5 := by
          simp [List.length_drop, hl]
        simp only [List.length_append, List.length_singleton, h2]
        omega
      · intro k hk
        have htake : (l ++ [b]).take (c / 5) = l.take (c / 5) :=
          List.take_append_of_le_length (by omega)
        rw [htake] at hk
        simp only [List.map_append, List.map_cons, List.map_nil, List.mem_append,
          List.mem_cons, List.not_mem_nil]
        push_neg
        have hdropfst : ((l.map (fun k => (k, f k))).drop (c / 5)).map Prod.fst =
            l.drop (c / 5) := by
          rw [← List.map_drop, List.map_map]
          exact List.map_id _
        refine ⟨?_, ?_, fun h => h⟩
        · rw [hdropfst]
          have hdisj : List.Disjoint (l.take (c / 5)) (l.drop (c / 5)) :=
            List.disjoint_of_nodup_append (by rw [List.take_append_drop]; exact hnd2.1)
          exact hdisj hk
        · intro he
          exact hbl (he ▸ List.take_subset _ _ hk)

/-- Witness for C5 at ceiling 5 with six distinct fingerprints: the final
cache has at most 5 entries and the oldest fingerprint is gone. -/
theorem c5_eviction_witness :
    (ks6.foldl (fun m k => cacheInsert 5 m k ((fun _ => "v") k)) []).length ≤ 5 ∧
    "k0" ∉ (ks6.foldl (fun m k => cacheInsert 5 m k ((fun _ => "v") k)) []).map Prod.fst :=
  ⟨((c5_eviction 5 (by decide)).2.2 ks6 (fun _ => "v") (by decide) (by decide)).1,
   ((c5_eviction 5 (by decide)).2.2 ks6 (fun _ => "v") (by decide) (by decide)).2
     "k0" (by decide)⟩

theorem parseValueCore_head_shape (f : Nat) (c : Char) (t : List Char)
    (j : JVal) (r : List Char) (h : parseValueCore f (c :: t) = some (j, r)) :
    (c = lbrace → ∃ l, j = JVal.vobj l) ∧ (c = '[' → ∃ l, j = JVal.varr l) := by
  cases f with
  | zero => simp [parseValueCore] at h
  | succ f =>
    constructor
    · intro hc
      subst hc
      simp only [parseValueCore, if_pos rfl] at h
      cases hp : parseObjBody f (skipWs t) with
      | none => rw [hp] at h; simp at h
      | some p =>
        rw [hp] at h
        simp at h
        exact ⟨p.1, h.1.symm⟩
    · intro hc
      subst hc
      have hne : ¬ ('[' = lbrace) := by decide
      simp only [parseValueCore, if_neg hne, if_pos rfl] at h
      cases hp : parseArrBody f (skipWs t) with
      | none => rw [hp] at h; simp at h
      | some p =>
        rw [hp] at h
        simp at h
        exact ⟨p.1, h.1.symm⟩

/-- C7: `_parseJson` returns the sentinel (the JS boolean `false`) exactly
for non-string inputs, strings failing the first-character fast path, and
strings whose full parse fails; on success it returns the parsed value,
and a parse that passed the fast path can never produce the sentinel value
itself, keeping the sentinel distinguishable. -/
theorem c7_parse_sentinel :
    (∀ v : JVal, (∀ s, v ≠ JVal.vstr s) → _parseJson v = JVal.vbool false) ∧
    (∀ s : String, firstCharJsonOk s = false → _parseJson (.vstr s) = JVal.vbool false) ∧
    (∀ s : String, jsonParse s = none → _parseJson (.vstr s) = JVal.vbool false) ∧
    (∀ (s : String) (j : JVal), firstCharJsonOk s = true → jsonParse s = some j →
        _parseJson (.vstr s) = j ∧ j ≠ JVal.vbool false) := by
  refine ⟨fun v hv => ?_, fun s h => ?_, fun s h => ?_, fun s j hfc hp => ?_⟩
  · cases v <;> first | rfl | exact absurd rfl (hv _)
  · simp [_parseJson, h]
  · by_cases hf : firstCharJsonOk s <;> simp [_parseJson, hf, h]
  · have hparse : _parseJson (.vstr s) = j := by simp [_parseJson, hfc, hp]
    refine ⟨hparse, ?_⟩
    cases hd : s.data with
    | nil => rw [firstCharJsonOk, hd] at hfc; simp at hfc
    | cons c t =>
      rw [firstCharJsonOk, hd] at hfc
      simp only [Bool.or_eq_true, decide_eq_true_eq] at hfc
      have hnws : isWs c = false := by
        rcases hfc with rfl | rfl <;> decide
      have hskip : skipWs s.data = c :: t := by
        rw [hd, skipWs, hnws]
        simp
      simp only [jsonParse, hskip] at hp
      cases hcore : parseValueCore (2 * s.length + 2) (c :: t) with
      | none => simp [hcore] at hp
      | some p =>
        obtain ⟨v, rest⟩ := p
        simp only [hcore] at hp
        by_cases hr : skipWs rest = []
        · rw [if_pos hr] at hp
          obtain rfl := Option.some.inj hp
          have hshape := parseValueCore_head_shape _ c t v rest hcore
          rcases hfc with rfl | rfl
          · obtain ⟨l, rfl⟩ := hshape.1 rfl
            intro hcontra
            cases hcontra
          · obtain ⟨l, rfl⟩ := hshape.2 rfl
            intro hcontra
            cases hcontra
        · rw [if_neg hr] at hp
          simp at hp

/-- Witness for C7: a non-string, a fast-path reject, a failing parse and
a successful array parse, the latter being distinct from the sentinel. -/
theorem c7_parse_sentinel_witness :
    _parseJson (.vnum 5) = JVal.vbool false ∧
    _parseJson (.vstr "x") = JVal.vbool false ∧
    _parseJson (.vstr "[") = JVal.vbool false ∧
    _parseJson (.vstr "[1]") = JVal.varr [JVal.vnum 1] ∧
    JVal.varr [JVal.vnum 1] ≠ JVal.vbool false :=
  ⟨c7_parse_sentinel.1 (.vnum 5) (fun _ h => JVal.noConfusion h),
   c7_parse_sentinel.2.1 "x" rfl,
   c7_parse_sentinel.2.2.1 "[" rfl,
   (c7_parse_sentinel.2.2.2 "[1]" (JVal.varr [JVal.vnum 1]) rfl rfl).1,
   (c7_parse_sentinel.2.2.2 "[1]" (JVal.varr [JVal.vnum 1]) rfl rfl).2⟩

theorem assocLookup_jsMapSet {α : Type} (m : List (String × α)) (a k : String) (v : α) :
    assocLookup (jsMapSet m a v) k = if a = k then some v else assocLookup m k := by
  induction m with
  | nil => simp [jsMapSet, assocLookup]
  | cons p rest ih =>
    obtain ⟨x, y⟩ := p
    simp only [jsMapSet]
    by_cases hxa : x = a
    · rw [if_pos hxa]
      by_cases hak : a = k
      · rw [if_pos hak]
        have hxk : x = k := hxa.trans hak
        simp [assocLookup, hxk]
      · rw [if_neg hak]
        have hxk : ¬ x = k := fun h => hak (hxa.symm.trans h)
        simp [assocLookup, hxk]
    · rw [if_neg hxa]
      by_cases hxk : x = k
      · have hak : ¬ a = k := fun h => hxa (hxk.trans h.symm)
        simp [assocLookup, hxk, hak]
      · simp [assocLookup, hxk, ih]

theorem fromEntries_lookup_isSome :
    ∀ (l m : List (String × JVal)) (k : String),
      k ∈ l.map Prod.fst ∨ (assocLookup m k).isSome = true →
      (assocLookup (l.foldl (fun acc p => jsMapSet acc p.1 p.2) m) k).isSome = true := by
  intro l
  induction l with
  | nil =>
    intro m k h
    simpa using h
  | cons p t ih =>
    intro m k h
    rw [List.foldl_cons]
    apply ih
    rcases h with h | h
    · simp only [List.map_cons, List.mem_cons] at h
      rcases h with rfl | h
      · right
        rw [assocLookup_jsMapSet]
        simp
      · left
        exact h
    · right
      rw [assocLookup_jsMapSet]
      by_cases hp : p.1 = k <;> simp [hp, h]

theorem fromEntries_lookup_mem :
    ∀ (l m : List (String × JVal)) (k : String) (v : JVal),
      assocLookup (l.foldl (fun acc p => jsMapSet acc p.1 p.2) m) k = some v →
      (k, v) ∈ l ∨ assocLookup m k = some v := by
  intro l
  induction l with
  | nil =>
    intro m k v h
    right
    simpa using h
  | cons p t ih =>
    intro m k v h
    rw [List.foldl_cons] at h
    rcases ih _ k v h with h1 | h1
    · left
      exact List.mem_cons_of_mem _ h1
    · rw [assocLookup_jsMapSet] at h1
      by_cases hp : p.1 = k
      · rw [if_pos hp] at h1
        obtain rfl := Option.some.inj h1
        left
        have : (k, p.2) = p := by
          obtain ⟨p1, p2⟩ := p
          simp at hp ⊢
          exact hp.symm
        rw [this]
        exact List.mem_cons_self p t
      · rw [if_neg hp] at h1
        right
        exact h1

theorem getBulkEntry_spec (ctx : Ctx) (k : String) (v : Option String)
    (p : String × JVal) (ctx1 : Ctx) (h : getBulkEntry ctx k v = .ok (p, ctx1)) :
    p.1 = k ∧ (v = none → p.2 = JVal.vnull) := by
  cases v with
  | none =>
    simp [getBulkEntry] at h
    rw [← h.1]
    exact ⟨rfl, fun _ => rfl⟩
  | some s =>
    refine ⟨?_, fun hc => by cases hc⟩
    by_cases hs : s = ""
    · simp [getBulkEntry, hs] at h
      rw [← h.1]
    · simp only [getBulkEntry, if_neg hs] at h
      cases hd : _decompress ctx s with
      | error e => rw [hd] at h; simp at h
      | ok dc =>
        rw [hd] at h
        simp at h
        rw [← h.1]

theorem redisGetMany_forall2 (st : Store) :
    ∀ (ks : List String) (vs : List (Option String)),
      redisGetMany st ks = .ok vs →
      List.Forall₂ (fun k v => redisGetStr st k = .ok v) ks vs := by
  intro ks
  induction ks with
  | nil =>
    intro vs h
    simp [redisGetMany] at h
    subst h
    exact List.Forall₂.nil
  | cons k t ih =>
    intro vs h
    simp only [redisGetMany] at h
    cases h1 : redisGetStr st k with
    | error e => simp [h1] at h
    | ok v =>
      simp only [h1] at h
      cases h2 : redisGetMany st t with
      | error e => simp [h2] at h
      | ok vs2 =>
        simp only [h2] at h
        simp at h
        subst h
        exact List.Forall₂.cons h1 (ih vs2 h2)

theorem getBulkGo_forall2 :
    ∀ (l : List (String × Option String)) (ctx : Ctx)
      (pairs : List (String × JVal)) (ctx1 : Ctx),
      getBulkGo ctx l = .ok (pairs, ctx1) →
      List.Forall₂ (fun (a : String × Option String) (b : String × JVal) =>
        b.1 = a.1 ∧ (a.2 = none → b.2 = JVal.vnull)) l pairs := by
  intro l
  induction l with
  | nil =>
    intro ctx pairs ctx1 h
    simp [getBulkGo] at h
    obtain ⟨h1, _⟩ := h
    subst h1
    exact List.Forall₂.nil
  | cons kv t ih =>
    intro ctx pairs ctx1 h
    obtain ⟨k, v⟩ := kv
    simp only [getBulkGo] at h
    cases h1 : getBulkEntry ctx k v with
    | error e => simp [h1] at h
    | ok pc =>
      obtain ⟨p, ctxA⟩ := pc
      simp only [h1] at h
      cases h2 : getBulkGo ctxA t with
      | error e => simp [h2] at h
      | ok psc =>
        obtain ⟨ps, ctxB⟩ := psc
        simp only [h2] at h
        simp at h
        obtain ⟨h3, _⟩ := h
        subst h3
        exact List.Forall₂.cons (getBulkEntry_spec ctx k v p ctxA h1) (ih ctxA ps ctxB h2)

theorem forall2_mem_right {α β : Type} {R : α → β → Prop} :
    ∀ {l : List α} {m : List β}, List.Forall₂ R l m → ∀ b ∈ m, ∃ a ∈ l, R a b := by
  intro l m h
  induction h with
  | nil => intro b hb; simp at hb
  | cons hr _ ih =>
    intro b hb
    rcases List.mem_cons.mp hb with rfl | hb
    · exact ⟨_, List.mem_cons_self _ _, hr⟩
    · obtain ⟨a, ha, har⟩ := ih b hb
      exact ⟨a, List.mem_cons_of_mem _ ha, har⟩

theorem forall2_zip {α β : Type} {R : α → β → Prop} :
    ∀ {l : List α} {m : List β}, List.Forall₂ R l m → ∀ p ∈ l.zip m, R p.1 p.2 := by
  intro l m h
  induction h with
  | nil => intro p hp; simp at hp
  | cons hr _ ih =>
    intro p hp
    rw [List.zip_cons_cons] at hp
    rcases List.mem_cons.mp hp with rfl | hp
    · exact hr
    · exact ih p hp

theorem forall2_fst_eq :
    ∀ {l : List (String × Option String)} {p : List (String × JVal)},
      List.Forall₂ (fun (a : String × Option String) (b : String × JVal) =>
        b.1 = a.1 ∧ (a.2 = none → b.2 = JVal.vnull)) l p →
      p.map Prod.fst = l.map Prod.fst := by
  intro l p h
  induction h with
  | nil => rfl
  | cons hr _ ih =>
    simp [List.map_cons, ih, hr.1]

theorem redisGetMany_all_none (st : Store) :
    ∀ (fks : List String), (∀ k ∈ fks, assocLookup st k = none) →
      redisGetMany st fks = .ok (fks.map (fun _ => none)) := by
  intro fks
  induction fks with
  | nil => intro _; rfl
  | cons k t ih =>
    intro h
    have hk : redisGetStr st k = .ok none := by
      simp [redisGetStr, h k (List.mem_cons_self k t)]
    simp only [redisGetMany, hk, ih (fun k2 hk2 => h k2 (List.mem_cons_of_mem _ hk2))]
    rfl

theorem getBulkGo_all_none (ctx : Ctx) :
    ∀ (keys : List String),
      getBulkGo ctx (keys.zip (keys.map (fun _ => (none : Option String)))) =
        .ok (keys.map (fun k => (k, JVal.vnull)), ctx) := by
  intro keys
  induction keys with
  | nil => rfl
  | cons k t ih =>
    have ih2 : getBulkGo ctx
        (List.zipWith Prod.mk t (t.map (fun _ => (none : Option String)))) =
        .ok (t.map (fun k => (k, JVal.vnull)), ctx) := ih
    simp only [List.map_cons, List.zip_cons_cons, getBulkGo, getBulkEntry, ih2]

/-- C9: `getBulk` returns a mapping with an entry for every requested key;
a key with no stored value maps to `null`; and when every requested key is
absent the call succeeds outright with an all-`null` mapping — a missing
key never makes the call throw. -/
theorem c9_bulk_missing (ctx : Ctx) (ns : String) (st : Store) (keys : List String) :
    ((∀ k ∈ keys, assocLookup st (ns ++ ":" ++ k) = none) →
        getBulk ctx ns st keys =
          .ok (jsFromEntries (keys.map (fun k => (k, JVal.vnull))), ctx)) ∧
    (∀ out ctx1, getBulk ctx ns st keys = .ok (out, ctx1) →
        (∀ k ∈ keys, (assocLookup out k).isSome = true) ∧
        (∀ k ∈ keys, assocLookup st (ns ++ ":" ++ k) = none →
            assocLookup out k = some JVal.vnull)) := by
  constructor
  · intro h
    have hfml : ∀ fk ∈ keys.map (fun k => ns ++ ":" ++ k), assocLookup st fk = none := by
      intro fk hfk
      obtain ⟨k, hk, rfl⟩ := List.mem_map.mp hfk
      exact h k hk
    have hzip : (keys.map (fun k => ns ++ ":" ++ k)).map
        (fun _ => (none : Option String)) = keys.map (fun _ => none) := by
      rw [List.map_map]
      rfl
    simp only [getBulk, redisGetMany_all_none st _ hfml, hzip, getBulkGo_all_none]
  · intro out ctx1 h
    simp only [getBulk] at h
    cases hm : redisGetMany st (keys.map (fun k => ns ++ ":" ++ k)) with
    | error e => simp [hm] at h
    | ok values =>
      simp only [hm] at h
      cases hg : getBulkGo ctx (keys.zip values) with
      | error e => simp [hg] at h
      | ok pc =>
        obtain ⟨pairs, ctxA⟩ := pc
        simp only [hg] at h
        simp at h
        obtain ⟨hout, _⟩ := h
        subst hout
        have hf2v := redisGetMany_forall2 st _ _ hm
        have hf2k : List.Forall₂ (fun k v => redisGetStr st (ns ++ ":" ++ k) = .ok v)
            keys values := List.forall₂_map_left_iff.mp hf2v
        have hf2p := getBulkGo_forall2 _ _ _ _ hg
        have hlen : keys.length ≤ values.length := by
          have := hf2k.length_eq
          omega
        have hfst : pairs.map Prod.fst = keys := by
          rw [forall2_fst_eq hf2p]
          exact List.map_fst_zip _ _ hlen
        constructor
        · intro k hk
          exact fromEntries_lookup_isSome pairs [] k (Or.inl (by rw [hfst]; exact hk))
        · intro k hk hnone
          have hall : ∀ p ∈ pairs, p.1 = k → p.2 = JVal.vnull := by
            intro p hp hpk
            obtain ⟨a, ha, har⟩ := forall2_mem_right hf2p p hp
            have hza : redisGetStr st (ns ++ ":" ++ a.1) = .ok a.2 := by
              have := forall2_zip hf2k a ha
              exact this
            have ha1 : a.1 = k := by rw [← har.1, hpk]
            rw [ha1] at hza
            have hzn : redisGetStr st (ns ++ ":" ++ k) = .ok none := by
              simp [redisGetStr, hnone]
            rw [hzn] at hza
            exact har.2 (Except.ok.inj hza).symm
          have hsome := fromEntries_lookup_isSome pairs [] k
            (Or.inl (by rw [hfst]; exact hk))
          obtain ⟨v, hv⟩ := Option.isSome_iff_exists.mp hsome
          rcases fromEntries_lookup_mem pairs [] k v hv with hmem | hmem
          · have := hall (k, v) hmem rfl
            simp only at this
            show assocLookup (pairs.foldl (fun acc p => jsMapSet acc p.1 p.2) []) k =
              some JVal.vnull
            rw [hv, this]
          · simp [assocLookup] at hmem

/-- Witness for C9: a bulk read of one absent key over an empty store
returns the key mapped to `null` without failing, and the resulting
mapping has the entry. -/
theorem c9_bulk_missing_witness :
    getBulk ctxOff "ns" [] ["absent"] = .ok ([("absent", JVal.vnull)], ctxOff) ∧
    assocLookup [("absent", JVal.vnull)] "absent" = some JVal.vnull :=
  ⟨(c9_bulk_missing ctxOff "ns" [] ["absent"]).1 (fun _ _ => rfl),
   ((c9_bulk_missing ctxOff "ns" [] ["absent"]).2 [("absent", JVal.vnull)] ctxOff
       ((c9_bulk_missing ctxOff "ns" [] ["absent"]).1 (fun _ _ => rfl))).2
     "absent" (by simp) rfl⟩

end RC
